import Mathlib

/-!
Verification of the crisislab-platform/meshtastic-server api-server against its
specification. The Rust sources under src/api-server/src are shallowly embedded:
pure functions become Lean functions, `f32` values are modelled as exact
rationals extended with a `NaN` marker (rounding and overflow of `f32`
arithmetic are not modelled; `f32::MAX` is modelled by its exact rational
value), fallible code (Rust panics) returns `Option`/`Except`, and the stateful
session handlers are modelled as functions over explicit event traces.
-/

namespace MeshServer

/-- An exact rational as an explicit (not necessarily reduced) fraction with
a positive denominator intended. All operations below keep denominators
positive; `Frac.toRat` and the lemmas about it show they implement exact
rational arithmetic. The point of the representation is that its operations
use only integer arithmetic. -/
structure Frac : Type where
  num : ℤ
  den : ℤ
deriving DecidableEq, Repr

def Frac.ofInt (n : ℤ) : Frac := ⟨n, 1⟩

def Frac.toRat (a : Frac) : ℚ := (a.num : ℚ) / (a.den : ℚ)

/-- Exact fraction addition (no reduction). -/
def Frac.add (a b : Frac) : Frac := ⟨a.num * b.den + b.num * a.den, a.den * b.den⟩

/-- Exact fraction multiplication (no reduction). -/
def Frac.mul (a b : Frac) : Frac := ⟨a.num * b.num, a.den * b.den⟩

/-- Strict comparison by cross-multiplication (exact for positive
denominators). -/
def Frac.blt (a b : Frac) : Bool := decide (a.num * b.den < b.num * a.den)

/-- Value equality by cross-multiplication (exact for nonzero
denominators). -/
def Frac.beq (a b : Frac) : Bool := decide (a.num * b.den = b.num * a.den)

/-- Model of the `f32` values reachable in `pathfinding.rs`: either `NaN` or
an exact rational value. `f32::MAX` is the value `f32MaxFrac` below.
Arithmetic is exact (no rounding/overflow), comparisons mirror IEEE semantics
on non-`NaN` values, and every comparison involving `NaN` is false. -/
inductive F32 : Type where
  | nan : F32
  | val : Frac → F32
deriving DecidableEq, Repr

/-- The exact rational value of `f32::MAX` = (2 - 2^-23) * 2^127. -/
def f32Max : ℚ := 2 ^ 128 - 2 ^ 104

/-- `f32::MAX` as a fraction: the same value as `f32Max`. -/
def f32MaxFrac : Frac := ⟨2 ^ 128 - 2 ^ 104, 1⟩

/-- IEEE addition on the modelled values: `NaN` propagates. -/
def F32.add : F32 → F32 → F32
  | .val a, .val b => .val (a.add b)
  | _, _ => .nan

/-- IEEE multiplication on the modelled values: `NaN` propagates. -/
def F32.mul : F32 → F32 → F32
  | .val a, .val b => .val (a.mul b)
  | _, _ => .nan

/-- Rust `<` on f32: false whenever either operand is `NaN`. -/
def F32.lt : F32 → F32 → Bool
  | .val a, .val b => a.blt b
  | _, _ => false

/-- Rust `partial_cmp` on f32: `none` whenever either operand is `NaN`. -/
def F32.partialCmp : F32 → F32 → Option Ordering
  | .val a, .val b => some (if a.blt b then .lt else if b.blt a then .gt else .eq)
  | _, _ => none

/-- Rust `==` (PartialEq) on f32: `NaN` is equal to nothing, itself included. -/
def F32.req : F32 → F32 → Bool
  | .val a, .val b => a.beq b
  | _, _ => false

/-! ## Edge weights (src/api-server/src/pathfinding.rs, lines 19-59)

`compute_edge_weight` and its proportionalised form are pure arithmetic on
`i32`/`f32`; the `f32` arithmetic is modelled exactly over `ℚ` (none of the
values involved in the claims are `NaN`, and `EdgeWeight::MAX` is the finite
`f32::MAX`, modelled by `f32Max`). -/

def MIN_RSSI : ℤ := -120

def MAX_RSSI : ℤ := 0

def MIN_SNR : ℚ := -20

def MAX_SNR : ℚ := 30

/-- Translation of `compute_edge_weight` (pathfinding.rs:43): snr below
`MIN_SNR` yields `EdgeWeight::MAX` (the finite `f32::MAX`, not infinity),
otherwise `-rssi - snr`. -/
def compute_edge_weight (rssi : ℤ) (snr : ℚ) : ℚ :=
  if snr < MIN_SNR then f32Max else (-rssi : ℚ) - snr

/-- `MIN_WEIGHT` static (pathfinding.rs:23). -/
def MIN_WEIGHT : ℚ := compute_edge_weight MAX_RSSI MAX_SNR

/-- `MAX_WEIGHT` static (pathfinding.rs:24). -/
def MAX_WEIGHT : ℚ := compute_edge_weight MIN_RSSI MIN_SNR

/-- `WEIGHT_RANGE` static (pathfinding.rs:26); its positivity guard passes
since the value is 170. -/
def WEIGHT_RANGE : ℚ := MAX_WEIGHT - MIN_WEIGHT

def MAX_HOPS : ℕ := 10

/-- Translation of `proportionalise_weight` (pathfinding.rs:38): divide by the
weight range and multiply by `MAX_HOPS`. Note: no shift by `MIN_WEIGHT`. -/
def proportionalise_weight (weight : ℚ) : ℚ :=
  (weight / WEIGHT_RANGE) * (MAX_HOPS : ℚ)

/-- Translation of `compute_edge_weight_proportionalised` (pathfinding.rs:57). -/
def compute_edge_weight_proportionalised (rssi : ℤ) (snr : ℚ) : ℚ :=
  proportionalise_weight (compute_edge_weight rssi snr)

/-! ## Ring buffer (src/api-server/src/utils.rs, lines 12-50)

`write` can panic in two distinct places, modelled by `PanicKind`: indexing
`self.items[self.next_insertion_index]` out of bounds, and the remainder
`self.next_insertion_index %= self.capacity` with a zero capacity. The
indexing is evaluated before the remainder, so on a capacity-0 buffer the
index panic fires first. -/

inductive PanicKind : Type where
  | indexOutOfBounds : PanicKind
  | remainderByZero : PanicKind
deriving DecidableEq, Repr

structure RingBuffer (α : Type) : Type where
  items : List α
  capacity : ℕ
  next_insertion_index : ℕ
deriving DecidableEq, Repr

/-- Translation of `RingBuffer::new` (utils.rs:19): empty items, index 0. -/
def RingBuffer.new {α : Type} (capacity : ℕ) : RingBuffer α :=
  ⟨[], capacity, 0⟩

/-- Translation of `RingBuffer::write` (utils.rs:27): push while below
capacity, otherwise overwrite at `next_insertion_index` (panicking if that
index is out of bounds), then advance the index modulo the capacity
(panicking on a zero capacity). -/
def RingBuffer.write {α : Type} (b : RingBuffer α) (item : α) :
    Except PanicKind (RingBuffer α) :=
  match
    (if b.items.length < b.capacity then
      Except.ok (b.items ++ [item])
    else if b.next_insertion_index < b.items.length then
      Except.ok (b.items.set b.next_insertion_index item)
    else
      Except.error PanicKind.indexOutOfBounds : Except PanicKind (List α)) with
  | .error e => .error e
  | .ok items =>
    if b.capacity = 0 then
      .error PanicKind.remainderByZero
    else
      .ok ⟨items, b.capacity, (b.next_insertion_index + 1) % b.capacity⟩

/-- Translation of `IntoIterator for &RingBuffer` (utils.rs:41): the slice
`[next_insertion_index ..]` chained with `[.. next_insertion_index]`. -/
def RingBuffer.iter {α : Type} (b : RingBuffer α) : List α :=
  b.items.drop b.next_insertion_index ++ b.items.take b.next_insertion_index

/-- Writes a whole sequence into the buffer, propagating any panic. -/
def writeAll {α : Type} (b : RingBuffer α) : List α → Except PanicKind (RingBuffer α)
  | [] => .ok b
  | x :: xs =>
    match b.write x with
    | .error e => .error e
    | .ok b' => writeAll b' xs

/-! ## Dijkstra (src/api-server/src/pathfinding.rs, lines 61-180)

Node ids (`NodeId = u32`) are modelled by `ℕ` (ids are only compared and
hashed). `HashMap`s are modelled by association lists; the iteration orders
that matter are deterministic in the source (`BTreeSet` iterates ascending,
which `sortNat` reproduces), and the remaining `HashMap` iteration orders are
irrelevant: relaxations of distinct neighbours are independent, and the
per-gateway table iteration touches each node's list independently.
Panics (`Option.unwrap` on `None`, `partial_cmp(..).unwrap()` on `NaN`)
surface as `none` results. -/

/-- Translation of `DijkstraEntry` (pathfinding.rs:75). -/
structure DijkstraEntry : Type where
  total_distance : F32
  total_cost : F32
  previous : Option ℕ
  hop_count : ℕ
deriving DecidableEq, Repr

/-- Rust derived `PartialEq` on `DijkstraEntry`: field-wise, with IEEE
equality (`F32.req`) on the two float fields. -/
def DijkstraEntry.req (a b : DijkstraEntry) : Bool :=
  F32.req a.total_distance b.total_distance && F32.req a.total_cost b.total_cost
    && decide (a.previous = b.previous) && decide (a.hop_count = b.hop_count)

/-- The inner map of an adjacency map: neighbour to edge weight. -/
abbrev InnerMap : Type := List (ℕ × F32)

/-- `AdjacencyMap<NodeId>` (pathfinding.rs:17) as an association list; a real
`HashMap` has pairwise distinct keys. -/
abbrev AdjacencyMap : Type := List (ℕ × InnerMap)

/-- The `result: HashMap<V, DijkstraEntry<V>>` of `dijkstra`. -/
abbrev DijkstraResult : Type := List (ℕ × DijkstraEntry)

/-- Translation of `get_route_cost` (pathfinding.rs:63):
`cost * route_cost_weight + hop_count * route_hops_weight`. -/
def get_route_cost (route_cost_weight route_hops_weight : F32) (cost : F32)
    (hop_count : ℕ) : F32 :=
  F32.add (F32.mul cost route_cost_weight)
    (F32.mul (F32.val (Frac.ofInt hop_count)) route_hops_weight)

/-- `HashMap::insert` on an existing key: replace the binding in place. In
`dijkstra` the updated neighbour always has a binding already (it is drawn
from the same filtered key set as `result`), so no append case is needed. -/
def updEntry (res : DijkstraResult) (n : ℕ) (e : DijkstraEntry) : DijkstraResult :=
  res.map (fun p => if p.1 = n then (n, e) else p)

/-- Translation of the relaxation step, the body of the neighbour loop in
`dijkstra` (pathfinding.rs:146-176). A `NaN` `new_cost` (from a `NaN` edge
weight) fails the `<` comparison and leaves the table unchanged. When
`result.get(neighbour)` would be `None` the Rust code would panic on
`unwrap`; that state is unreachable (`unvisited` and `result` are built from
the same keys), and the model returns `total_cost = NaN` there, which equally
leaves the table unchanged. -/
def relax (route_cost_weight route_hops_weight : F32) (current : ℕ)
    (current_entry : DijkstraEntry) (unvisited : List ℕ) (res : DijkstraResult)
    (neighbour : ℕ) (weight : F32) : DijkstraResult :=
  if neighbour ∈ unvisited then
    let old_cost : F32 :=
      match List.lookup neighbour res with
      | some e => e.total_cost
      | none => F32.nan
    let new_distance : F32 := F32.add current_entry.total_distance weight
    let new_cost : F32 :=
      get_route_cost route_cost_weight route_hops_weight new_distance
        (current_entry.hop_count + 1)
    if F32.lt new_cost old_cost then
      updEntry res neighbour
        ⟨new_distance, new_cost, some current, current_entry.hop_count + 1⟩
    else res
  else res

/-- The whole neighbour loop of `dijkstra` (pathfinding.rs:146). -/
def relaxAll (route_cost_weight route_hops_weight : F32) (current : ℕ)
    (current_entry : DijkstraEntry) (unvisited : List ℕ) :
    List (ℕ × F32) → DijkstraResult → DijkstraResult
  | [], res => res
  | (n, w) :: rest, res =>
    relaxAll route_cost_weight route_hops_weight current current_entry unvisited
      rest
      (relax route_cost_weight route_hops_weight current current_entry unvisited
        res n w)

/-- The comparator of the `min_by` call (pathfinding.rs:131):
`result.get(a).unwrap().total_cost.partial_cmp(&result.get(b).unwrap().total_cost).unwrap()`.
A missing entry or a `NaN` cost makes one of the `unwrap`s panic: `none`. -/
def costCmp (res : DijkstraResult) (a b : ℕ) : Option Ordering :=
  match List.lookup a res, List.lookup b res with
  | some ea, some eb => F32.partialCmp ea.total_cost eb.total_cost
  | _, _ => none

/-- `Iterator::min_by` over the unvisited `BTreeSet` (pathfinding.rs:129),
folding with `cmp::min_by`, which keeps the first element on `Less` or
`Equal` and takes the second on `Greater` (so the first minimum in ascending
id order wins). `none` models a panicking comparator. -/
def minByCostAux (res : DijkstraResult) : ℕ → List ℕ → Option ℕ
  | acc, [] => some acc
  | acc, y :: ys =>
    match costCmp res acc y with
    | none => none
    | some .gt => minByCostAux res y ys
    | some _ => minByCostAux res acc ys

/-- Insertion sort on naturals, reproducing the ascending iteration order of
the `BTreeSet` of unvisited nodes. -/
def insertSorted (x : ℕ) : List ℕ → List ℕ
  | [] => [x]
  | y :: ys => if x ≤ y then x :: y :: ys else y :: insertSorted x ys

def sortNat (l : List ℕ) : List ℕ := l.foldr insertSorted []

/-- The main `while !unvisited.is_empty()` loop of `dijkstra`
(pathfinding.rs:127-177), with explicit fuel. The fuel starts at the size of
the unvisited set and each iteration removes exactly one node, so the
fuel-exhaustion branch is unreachable. `none` models a panic: the `min_by`
comparator unwraps, `result.get(current).unwrap()`, or
`adjacency_map.get(current).unwrap()`. -/
def dijkstraLoop (route_cost_weight route_hops_weight : F32)
    (adjacency_map : AdjacencyMap) :
    ℕ → List ℕ → DijkstraResult → Option DijkstraResult
  | _, [], res => some res
  | 0, _ :: _, _ => none
  | fuel + 1, u :: us, res =>
    match minByCostAux res u us with
    | none => none
    | some current =>
      let unvisited' := (u :: us).erase current
      match List.lookup current res with
      | none => none
      | some current_entry =>
        match List.lookup current adjacency_map with
        | none => none
        | some neighbours =>
          dijkstraLoop route_cost_weight route_hops_weight adjacency_map fuel
            unvisited'
            (relaxAll route_cost_weight route_hops_weight current current_entry
              unvisited' neighbours res)

/-- The filter applied to the keys of the adjacency map (pathfinding.rs:99 and
124): keep the start node and all non-gateways. -/
def keepNode (gateway_ids : List ℕ) (start v : ℕ) : Bool :=
  (v == start) || !(gateway_ids.contains v)

/-- Initial distance (pathfinding.rs:103): `0` for the start node,
`EdgeWeight::MAX` otherwise. -/
def initDist (start v : ℕ) : F32 :=
  if v = start then F32.val (Frac.ofInt 0) else F32.val f32MaxFrac

/-- Translation of `dijkstra` (pathfinding.rs:84): initialise a record for
every kept key, then run the main loop over the kept keys in ascending order
(the `BTreeSet` order). -/
def dijkstra (route_cost_weight route_hops_weight : F32)
    (adjacency_map : AdjacencyMap) (gateway_ids : List ℕ) (start : ℕ) :
    Option DijkstraResult :=
  let kept : List ℕ :=
    sortNat ((adjacency_map.map Prod.fst).filter (keepNode gateway_ids start))
  let res₀ : DijkstraResult :=
    kept.map (fun v => (v, ⟨initDist start v, initDist start v, none, 0⟩))
  dijkstraLoop route_cost_weight route_hops_weight adjacency_map kept.length
    kept res₀

/-! ## Next-hops construction (src/api-server/src/pathfinding.rs, lines 187-267) -/

/-- The accumulator `result: HashMap<V, Vec<DijkstraEntry<V>>>` of
`compute_next_hops_map`; an absent node and a node bound to `[]` are
interchangeable (a node is inserted together with its first entry). -/
abbrev NextHopsAcc : Type := List (ℕ × List DijkstraEntry)

/-- `Vec::contains(&entry)` (pathfinding.rs:231), using the derived
`PartialEq` of `DijkstraEntry`. -/
def containsEntry (l : List DijkstraEntry) (e : DijkstraEntry) : Bool :=
  l.any (fun x => DijkstraEntry.req x e)

/-- The `binary_search_by` call of `compute_next_hops_map`
(pathfinding.rs:235-239). The closure is
`|entry| entry.total_cost.partial_cmp(&entry.total_cost).unwrap()`:
its parameter shadows the outer `entry`, so every probed element is compared
with itself. On a non-empty list the first probe is at index `len / 2` and
the comparator answers `Equal`, so `binary_search_by` returns `Ok(len / 2)`
at once (or panics on the inner `unwrap` if that element's cost is `NaN`);
on an empty list it returns `Err(0)`, and `unwrap_or_else(|e| e)` turns both
into the insertion index. -/
def next_hop_insert_position (l : List DijkstraEntry) : Option ℕ :=
  match l.get? (l.length / 2) with
  | none => some 0
  | some e =>
    match F32.partialCmp e.total_cost e.total_cost with
    | none => none
    | some _ => some (l.length / 2)

/-- `Vec::insert(position, entry)` (pathfinding.rs:241-244). The position is
always at most the length, so the bounds panic cannot fire. -/
def insertAt (l : List DijkstraEntry) (p : ℕ) (e : DijkstraEntry) :
    List DijkstraEntry :=
  match p, l with
  | 0, _ => e :: l
  | _ + 1, [] => [e]
  | q + 1, x :: xs => x :: insertAt xs q e

/-- `HashMap::insert` for the accumulator: replace an existing binding in
place, otherwise add it. -/
def accSet (acc : NextHopsAcc) (v : ℕ) (l : List DijkstraEntry) : NextHopsAcc :=
  if (List.lookup v acc).isSome then
    acc.map (fun p => if p.1 = v then (v, l) else p)
  else acc ++ [(v, l)]

/-- The body of the per-node insertion in `compute_next_hops_map`
(pathfinding.rs:225-244): create the vec if absent, skip an entry already
contained, otherwise insert it at the (buggy) binary-search position.
`none` models the comparator panic. -/
def accInsert (acc : NextHopsAcc) (v : ℕ) (e : DijkstraEntry) :
    Option NextHopsAcc :=
  let l : List DijkstraEntry := (List.lookup v acc).getD []
  if containsEntry l e then some acc
  else
    match next_hop_insert_position l with
    | none => none
    | some p => some (accSet acc v (insertAt l p e))

/-- The `for (node_id, entry) in dijkstra_table.iter()` loop
(pathfinding.rs:220-245): skip the gateway's own record, insert every other
record into that node's list. -/
def insertTableEntries (gateway_id : ℕ) :
    List (ℕ × DijkstraEntry) → NextHopsAcc → Option NextHopsAcc
  | [], acc => some acc
  | (node_id, entry) :: rest, acc =>
    if node_id = gateway_id then insertTableEntries gateway_id rest acc
    else
      match accInsert acc node_id entry with
      | none => none
      | some acc' => insertTableEntries gateway_id rest acc'

/-- The `for gateway_id in &gateway_ids` loop of `compute_next_hops_map`
(pathfinding.rs:197-246): a gateway id absent from the adjacency map returns
the empty map at once; otherwise run `dijkstra` from that gateway and fold
its table into the accumulator. -/
def nextHopsGo (route_cost_weight route_hops_weight : F32)
    (adjacency_map : AdjacencyMap) (gateway_ids : List ℕ) :
    List ℕ → NextHopsAcc → Option NextHopsAcc
  | [], acc => some acc
  | g :: rest, acc =>
    if g ∈ adjacency_map.map Prod.fst then
      match dijkstra route_cost_weight route_hops_weight adjacency_map
          gateway_ids g with
      | none => none
      | some table =>
        match insertTableEntries g table acc with
        | none => none
        | some acc' =>
          nextHopsGo route_cost_weight route_hops_weight adjacency_map
            gateway_ids rest acc'
    else some []

/-- The final mapping of `compute_next_hops_map` (pathfinding.rs:250-266):
replace each record by its `previous` node id, panicking
(`unwrap_or_else(|| panic!(..))`) when a record has no previous node. -/
def nextHopsToIds (acc : NextHopsAcc) : Option (List (ℕ × List ℕ)) :=
  if acc.all (fun p => p.2.all (fun e => e.previous.isSome)) then
    some (acc.map (fun p => (p.1, p.2.filterMap DijkstraEntry.previous)))
  else none

/-- Translation of `compute_next_hops_map` (pathfinding.rs:187). `none`
models a panic; the empty list models the empty map. -/
def compute_next_hops_map (route_cost_weight route_hops_weight : F32)
    (adjacency_map : AdjacencyMap) (gateway_ids : List ℕ) :
    Option (List (ℕ × List ℕ)) :=
  match nextHopsGo route_cost_weight route_hops_weight adjacency_map gateway_ids
      gateway_ids [] with
  | none => none
  | some acc => nextHopsToIds acc

/-! ## Request/response helper (src/api-server/src/utils.rs, lines 136-169)

The broadcast receiver is modelled by the finite list of `recv` outcomes the
helper observes before the deadline elapses; consuming the whole list without
returning corresponds to the `tokio::time::timeout` firing. Payload decoding
is the collaborator codec, kept abstract as a `decode` parameter. -/

inductive RecvOutcome (γ : Type) : Type where
  | ok : γ → RecvOutcome γ
  | lagged : RecvOutcome γ
  | closed : RecvOutcome γ
deriving DecidableEq, Repr

/-- The timeout error message (utils.rs:165-168), with
`timeout_duration.as_secs()` interpolated. -/
def timeoutMessage (timeout_secs : ℕ) : String :=
  "Timed out waiting for mesh response after " ++ toString timeout_secs
    ++ " seconds"

/-- Translation of `await_mesh_response` (utils.rs:136): receive in order;
decode each payload (a failure aborts with a decode error); hand decoded
messages to the callback and return its first `Some`; abort on a lagged or
closed receiver; time out when the deadline passes (the events list is
exhausted). -/
def await_mesh_response {γ α β : Type} (decode : γ → Except String α)
    (timeout_secs : ℕ) (callback : α → Option β) :
    List (RecvOutcome γ) → Except String β
  | [] => .error (timeoutMessage timeout_secs)
  | .ok buffer :: rest =>
    (match decode buffer with
    | .ok message =>
      match callback message with
      | some value => .ok value
      | none => await_mesh_response decode timeout_secs callback rest
    | .error e => .error ("Failed to decode CrisislabMessage: " ++ e))
  | .lagged :: _ => .error "Mesh response receiver lagged"
  | .closed :: _ => .error "Mesh response receiver closed"

/-- Modelled from the spec (section 4.2 / the C7 claim): the outcome a single
receiver event forces, if any — the first event with a forced outcome decides
the call, and no forced outcome before the deadline means a timeout. Used to
state the claim; compared against `await_mesh_response` above. -/
def meshResponseEventOutcome {γ α β : Type} (decode : γ → Except String α)
    (callback : α → Option β) : RecvOutcome γ → Option (Except String β)
  | .ok buffer =>
    (match decode buffer with
    | .ok message => (callback message).map Except.ok
    | .error e => some (.error ("Failed to decode CrisislabMessage: " ++ e)))
  | .lagged => some (.error "Mesh response receiver lagged")
  | .closed => some (.error "Mesh response receiver closed")

/-! ## Broker bridge source worker (src/api-server/src/mqtt.rs, lines 33-63)

The fan-out bus (`broadcast::Sender<Bytes>`) is modelled by the list of
payloads broadcast so far: each active subscriber receives exactly the
payloads appended after it subscribed. -/

/-- Translation of `handle_mqtt_message` (mqtt.rs:33-39). The body is a
single `info!` log of the topic and payload length; `tx_to_handlers` is
unused (silenced with `#[allow(unused_variables)]`), so the list of payloads
the call sends on the bus is empty. -/
def handle_mqtt_message (topic : String) (payload : List ℕ) :
    List (List ℕ) :=
  let _ := topic
  let _ := payload
  []

/-- One `Event::Incoming(Packet::Publish(packet))` iteration of
`subscriber_task` (mqtt.rs:52-54): the bus after handling the publish is the
bus before, extended by whatever `handle_mqtt_message` sends. -/
def subscriberTaskStep (bus : List (List ℕ)) (topic : String)
    (payload : List ℕ) : List (List ℕ) :=
  bus ++ handle_mqtt_message topic payload

/-! ## Live-telemetry session (src/api-server/src/routes.rs, lines 317-467)

The session handler is a single sequential task; it is modelled as a function
from the trace of events its `tokio::select!` loop observes to the final
value of the websocket-count gauge. Only the gauge is tracked (the telemetry
cache writes do not touch it). -/

inductive WsEvent : Type where
  /-- A bus payload that decodes to a `LiveTelemetry` message; the flag is
  the success of the websocket send. -/
  | meshTelemetry : Bool → WsEvent
  /-- A bus payload that decodes to some other variant. -/
  | meshOther : WsEvent
  /-- A bus payload that fails to decode; the flag is the success of sending
  the error packet. -/
  | meshDecodeError : Bool → WsEvent
  /-- A client frame: `true` for `Some(Ok(_))`, `false` for `None` or
  `Some(Err(_))`. -/
  | clientFrame : Bool → WsEvent
deriving DecidableEq, Repr

/-- Translation of `on_websocket_disconnect` (routes.rs:317-321). -/
def on_websocket_disconnect (websocket_count : ℤ) : ℤ :=
  websocket_count - 1

/-- Translation of `on_message_from_mesh` (routes.rs:323-369): a failed
websocket send (of the telemetry or of the decode-error packet) calls
`on_websocket_disconnect` and returns; every other path leaves the gauge
unchanged. The function returns to its caller in all cases. -/
def on_message_from_mesh (websocket_count : ℤ) : WsEvent → ℤ
  | .meshTelemetry false => on_websocket_disconnect websocket_count
  | .meshDecodeError false => on_websocket_disconnect websocket_count
  | _ => websocket_count

/-- The `loop { tokio::select! { .. } }` of `handle_live_info_websocket`
(routes.rs:449-466): bus payloads are handed to `on_message_from_mesh`
(whose return never breaks the loop); a client frame that is `None` or an
error calls `on_websocket_disconnect` and returns. An exhausted trace means
the session is still running. -/
def sessionLoop (websocket_count : ℤ) : List WsEvent → ℤ
  | [] => websocket_count
  | .clientFrame true :: rest => sessionLoop websocket_count rest
  | .clientFrame false :: _ => on_websocket_disconnect websocket_count
  | e :: rest => sessionLoop (on_message_from_mesh websocket_count e) rest

/-- Translation of `handle_live_info_websocket` (routes.rs:420-467):
increment the gauge, send the cache snapshot (a failure disconnects at
once), then run the multiplex loop. -/
def handle_live_info_websocket (websocket_count : ℤ) (cache_send_ok : Bool)
    (events : List WsEvent) : ℤ :=
  let websocket_count := websocket_count + 1
  if cache_send_ok then sessionLoop websocket_count events
  else on_websocket_disconnect websocket_count

/-! ## Invariant predicates -/

/-- Invariant of the Dijkstra result table: every stored cost is a genuine
(non-`NaN`) value, and every stored predecessor satisfies `Q`. Instantiated
with `Q q := q = start ∨ q ∉ gateway_ids`, the membership condition of the
working set. -/
def ResInv (Q : ℕ → Prop) (res : DijkstraResult) : Prop :=
  ∀ p ∈ res, p.2.total_cost ≠ F32.nan ∧ ∀ q, p.2.previous = some q → Q q

/-- Invariant of the `compute_next_hops_map` accumulator: every stored record
has a non-`NaN` cost (so the buggy binary search never panics). -/
def AccInv (acc : NextHopsAcc) : Prop :=
  ∀ p ∈ acc, ∀ e ∈ p.2, e.total_cost ≠ F32.nan

/-- State invariant of a ring buffer obtained by writing the sequence `W`
into a fresh buffer of capacity `c ≥ 1`: the items split as `post ++ pre`
with the insertion index at the split, the iteration order `pre ++ post` is
the suffix of the last `min (W.length) c` elements of `W`, and during the
fill phase the buffer is exactly `W`. -/
def RBInv {α : Type} (c : ℕ) (W : List α) (b : RingBuffer α) : Prop :=
  b.capacity = c ∧
  ∃ pre post : List α,
    b.items = post ++ pre ∧
    b.next_insertion_index = post.length ∧
    post.length < c ∧
    pre ++ post = W.drop (W.length - c) ∧
    b.items.length = min W.length c ∧
    (W.length < c → pre = [])

/-! ## Helper lemmas -/

lemma Frac.toRat_ofInt (n : ℤ) : (Frac.ofInt n).toRat = (n : ℚ) := by
  simp [Frac.toRat, Frac.ofInt]

/-- `Frac.add` is exact rational addition (nonzero denominators). -/
lemma Frac.toRat_add (a b : Frac) (ha : a.den ≠ 0) (hb : b.den ≠ 0) :
    (a.add b).toRat = a.toRat + b.toRat := by
  have ha' : (a.den : ℚ) ≠ 0 := Int.cast_ne_zero.mpr ha
  have hb' : (b.den : ℚ) ≠ 0 := Int.cast_ne_zero.mpr hb
  simp only [Frac.toRat, Frac.add]
  push_cast
  field_simp

/-- `Frac.mul` is exact rational multiplication. -/
lemma Frac.toRat_mul (a b : Frac) :
    (a.mul b).toRat = a.toRat * b.toRat := by
  simp only [Frac.toRat, Frac.mul]
  push_cast
  rw [div_mul_div_comm]

/-- `Frac.blt` is the exact rational strict order (positive denominators). -/
lemma Frac.blt_iff (a b : Frac) (ha : 0 < a.den) (hb : 0 < b.den) :
    a.blt b = true ↔ a.toRat < b.toRat := by
  have ha' : (0 : ℚ) < (a.den : ℚ) := by exact_mod_cast ha
  have hb' : (0 : ℚ) < (b.den : ℚ) := by exact_mod_cast hb
  simp only [Frac.blt, decide_eq_true_eq, Frac.toRat]
  rw [div_lt_div_iff₀ ha' hb']
  constructor <;> intro h <;> exact_mod_cast h

/-- `Frac.beq` is exact rational equality (nonzero denominators). -/
lemma Frac.beq_iff (a b : Frac) (ha : a.den ≠ 0) (hb : b.den ≠ 0) :
    a.beq b = true ↔ a.toRat = b.toRat := by
  have ha' : (a.den : ℚ) ≠ 0 := Int.cast_ne_zero.mpr ha
  have hb' : (b.den : ℚ) ≠ 0 := Int.cast_ne_zero.mpr hb
  simp only [Frac.beq, decide_eq_true_eq, Frac.toRat]
  rw [div_eq_div_iff ha' hb']
  constructor <;> intro h <;> exact_mod_cast h

lemma F32.lt_nan_left (x : F32) : F32.lt F32.nan x = false := by
  cases x <;> rfl

lemma F32.add_nan_right (x : F32) : F32.add x F32.nan = F32.nan := by
  cases x <;> rfl

lemma F32.add_nan_left (x : F32) : F32.add F32.nan x = F32.nan := by
  cases x <;> rfl

lemma F32.mul_nan_left (x : F32) : F32.mul F32.nan x = F32.nan := by
  cases x <;> rfl

/-- A true `<` comparison rules `NaN` out on both sides. -/
lemma F32.ne_nan_of_lt {a b : F32} (h : F32.lt a b = true) :
    a ≠ F32.nan ∧ b ≠ F32.nan := by
  cases a <;> cases b <;> simp_all [F32.lt]

/-- `partial_cmp` succeeds on two non-`NaN` values. -/
lemma F32.partialCmp_isSome {a b : F32} (ha : a ≠ F32.nan) (hb : b ≠ F32.nan) :
    ∃ o, F32.partialCmp a b = some o := by
  cases a with
  | nan => exact absurd rfl ha
  | val fa =>
    cases b with
    | nan => exact absurd rfl hb
    | val fb => exact ⟨_, rfl⟩

/-- Association-list lookup only returns stored pairs. -/
lemma lookup_mem {β : Type} {l : List (ℕ × β)} {a : ℕ} {b : β}
    (h : List.lookup a l = some b) : (a, b) ∈ l := by
  induction l with
  | nil => simp [List.lookup] at h
  | cons p t ih =>
    obtain ⟨k, v⟩ := p
    by_cases hk : a = k
    · subst hk
      simp [List.lookup] at h
      simp [h]
    · have hbeq : (a == k) = false := beq_eq_false_iff_ne.mpr hk
      rw [List.lookup, hbeq] at h
      exact List.mem_cons_of_mem _ (ih h)

/-- Association-list lookup succeeds exactly on the stored keys. -/
lemma lookup_isSome_iff_mem_fst {β : Type} {l : List (ℕ × β)} {a : ℕ} :
    (List.lookup a l).isSome = true ↔ a ∈ l.map Prod.fst := by
  induction l with
  | nil => simp [List.lookup]
  | cons p t ih =>
    obtain ⟨k, v⟩ := p
    by_cases hk : a = k
    · subst hk
      simp [List.lookup]
    · have hbeq : (a == k) = false := beq_eq_false_iff_ne.mpr hk
      rw [List.map_cons, List.lookup, hbeq]
      simp [ih, hk]

/-- Looking up a key of a key-indexed `map` succeeds. -/
lemma lookup_map_pair_isSome {β : Type} (g : ℕ → β) :
    ∀ (l : List ℕ) (v : ℕ), v ∈ l →
      (List.lookup v (l.map (fun u => (u, g u)))).isSome = true := by
  intro l
  induction l with
  | nil => simp
  | cons u t ih =>
    intro v hv
    by_cases hu : v = u
    · subst hu
      simp [List.lookup]
    · have hbeq : (v == u) = false := beq_eq_false_iff_ne.mpr hu
      rw [List.map_cons, List.lookup, hbeq]
      exact ih v (by
        rcases List.mem_cons.mp hv with h | h
        · exact absurd h hu
        · exact h)

/-- A member of the updated table is the new binding or an old member. -/
lemma mem_updEntry {res : DijkstraResult} {n : ℕ} {e : DijkstraEntry}
    {p : ℕ × DijkstraEntry} (hp : p ∈ updEntry res n e) :
    p = (n, e) ∨ p ∈ res := by
  simp only [updEntry, List.mem_map] at hp
  obtain ⟨q, hq, rfl⟩ := hp
  by_cases h : q.1 = n
  · left
    rw [if_pos h]
  · right
    rw [if_neg h]
    exact hq

/-- Updating a binding does not change the stored keys. -/
lemma map_fst_updEntry (res : DijkstraResult) (n : ℕ) (e : DijkstraEntry) :
    (updEntry res n e).map Prod.fst = res.map Prod.fst := by
  induction res with
  | nil => rfl
  | cons p t ih =>
    simp only [updEntry, List.map_cons] at ih ⊢
    refine congrArg₂ (· :: ·) ?_ ih
    by_cases h : p.1 = n
    · rw [if_pos h]
      exact h.symm
    · rw [if_neg h]

/-- On a set of nodes whose stored costs exist and are not `NaN`, the
`min_by` fold cannot panic and returns one of the nodes. -/
lemma minByCostAux_some (res : DijkstraResult) :
    ∀ (rest : List ℕ) (acc : ℕ),
      (∀ v ∈ acc :: rest,
        ∃ e, List.lookup v res = some e ∧ e.total_cost ≠ F32.nan) →
      ∃ c, minByCostAux res acc rest = some c ∧ c ∈ acc :: rest := by
  intro rest
  induction rest with
  | nil =>
    intro acc _
    exact ⟨acc, rfl, by simp⟩
  | cons y ys ih =>
    intro acc h
    obtain ⟨ea, hea, hna⟩ := h acc (by simp)
    obtain ⟨ey, hey, hny⟩ := h y (by simp)
    obtain ⟨o, ho⟩ := F32.partialCmp_isSome hna hny
    have hcmp : costCmp res acc y = some o := by
      simp [costCmp, hea, hey, ho]
    cases o with
    | gt =>
      obtain ⟨c, hc, hm⟩ := ih y (fun v hv => h v (by
        rcases List.mem_cons.mp hv with h' | h'
        · simp [h']
        · simp [List.mem_cons.mpr (Or.inr h')]))
      refine ⟨c, ?_, ?_⟩
      · simp only [minByCostAux, hcmp]
        exact hc
      · rcases List.mem_cons.mp hm with h' | h' <;> simp [h']
    | lt =>
      obtain ⟨c, hc, hm⟩ := ih acc (fun v hv => h v (by
        rcases List.mem_cons.mp hv with h' | h'
        · simp [h']
        · simp [List.mem_cons.mpr (Or.inr h')]))
      refine ⟨c, ?_, ?_⟩
      · simp only [minByCostAux, hcmp]
        exact hc
      · rcases List.mem_cons.mp hm with h' | h' <;> simp [h']
    | eq =>
      obtain ⟨c, hc, hm⟩ := ih acc (fun v hv => h v (by
        rcases List.mem_cons.mp hv with h' | h'
        · simp [h']
        · simp [List.mem_cons.mpr (Or.inr h')]))
      refine ⟨c, ?_, ?_⟩
      · simp only [minByCostAux, hcmp]
        exact hc
      · rcases List.mem_cons.mp hm with h' | h' <;> simp [h']

/-- One relaxation preserves the table invariant, provided the current node
satisfies `Q` (it becomes the recorded predecessor). -/
lemma relax_resInv {Q : ℕ → Prop} {route_cost_weight route_hops_weight : F32}
    {current : ℕ} {current_entry : DijkstraEntry} {unvisited : List ℕ}
    {res : DijkstraResult} {n : ℕ} {w : F32} (hQ : Q current)
    (h : ResInv Q res) :
    ResInv Q (relax route_cost_weight route_hops_weight current current_entry
      unvisited res n w) := by
  simp only [relax]
  split_ifs with h1 h2
  · intro p hp
    rcases mem_updEntry hp with rfl | hp'
    · refine ⟨(F32.ne_nan_of_lt h2).1, ?_⟩
      intro q hq
      have : current = q := by simpa using hq
      subst this
      exact hQ
    · exact h p hp'
  · exact h
  · exact h

/-- One relaxation does not change the stored keys. -/
lemma relax_map_fst (route_cost_weight route_hops_weight : F32) (current : ℕ)
    (current_entry : DijkstraEntry) (unvisited : List ℕ)
    (res : DijkstraResult) (n : ℕ) (w : F32) :
    (relax route_cost_weight route_hops_weight current current_entry unvisited
        res n w).map Prod.fst = res.map Prod.fst := by
  simp only [relax]
  split_ifs with h1 h2
  · exact map_fst_updEntry res n _
  · rfl
  · rfl

/-- The whole neighbour loop preserves the table invariant. -/
lemma relaxAll_resInv {Q : ℕ → Prop} (route_cost_weight route_hops_weight : F32)
    (current : ℕ) (current_entry : DijkstraEntry) (unvisited : List ℕ)
    (hQ : Q current) :
    ∀ (nbrs : List (ℕ × F32)) (res : DijkstraResult), ResInv Q res →
      ResInv Q (relaxAll route_cost_weight route_hops_weight current
        current_entry unvisited nbrs res) := by
  intro nbrs
  induction nbrs with
  | nil =>
    intro res h
    exact h
  | cons p rest ih =>
    intro res h
    obtain ⟨n, w⟩ := p
    exact ih _ (relax_resInv hQ h)

/-- The whole neighbour loop does not change the stored keys. -/
lemma relaxAll_map_fst (route_cost_weight route_hops_weight : F32)
    (current : ℕ) (current_entry : DijkstraEntry) (unvisited : List ℕ) :
    ∀ (nbrs : List (ℕ × F32)) (res : DijkstraResult),
      (relaxAll route_cost_weight route_hops_weight current current_entry
          unvisited nbrs res).map Prod.fst = res.map Prod.fst := by
  intro nbrs
  induction nbrs with
  | nil =>
    intro res
    rfl
  | cons p rest ih =>
    intro res
    obtain ⟨n, w⟩ := p
    rw [relaxAll, ih, relax_map_fst]

lemma mem_insertSorted (a x : ℕ) :
    ∀ (l : List ℕ), a ∈ insertSorted x l ↔ a = x ∨ a ∈ l := by
  intro l
  induction l with
  | nil => simp [insertSorted]
  | cons y ys ih =>
    by_cases h : x ≤ y
    · simp [insertSorted, if_pos h]
    · simp only [insertSorted, if_neg h, List.mem_cons, ih]
      tauto

lemma mem_sortNat (a : ℕ) : ∀ (l : List ℕ), a ∈ sortNat l ↔ a ∈ l := by
  intro l
  induction l with
  | nil => simp [sortNat]
  | cons y ys ih =>
    simp only [sortNat, List.foldr_cons] at ih ⊢
    rw [mem_insertSorted, ih, List.mem_cons]

/-- Master lemma for the Dijkstra main loop: with enough fuel, all unvisited
nodes present in the table and the adjacency map, and the table invariant
holding, the loop cannot panic and its output table keeps the invariant. -/
lemma dijkstraLoop_ok (route_cost_weight route_hops_weight : F32)
    (adjacency_map : AdjacencyMap) (Q : ℕ → Prop) :
    ∀ (fuel : ℕ) (unvisited : List ℕ) (res : DijkstraResult),
      unvisited.length ≤ fuel →
      (∀ v ∈ unvisited, Q v) →
      (∀ v ∈ unvisited, (List.lookup v res).isSome = true) →
      (∀ v ∈ unvisited, (List.lookup v adjacency_map).isSome = true) →
      ResInv Q res →
      ∃ res', dijkstraLoop route_cost_weight route_hops_weight adjacency_map
          fuel unvisited res = some res' ∧ ResInv Q res' := by
  intro fuel
  induction fuel with
  | zero =>
    intro unvisited res hlen _ _ _ hres
    cases unvisited with
    | nil => exact ⟨res, rfl, hres⟩
    | cons u us => simp at hlen
  | succ fuel ih =>
    intro unvisited res hlen hQ hpres hadj hres
    cases unvisited with
    | nil => exact ⟨res, rfl, hres⟩
    | cons u us =>
      have hgood : ∀ v ∈ u :: us,
          ∃ e, List.lookup v res = some e ∧ e.total_cost ≠ F32.nan := by
        intro v hv
        obtain ⟨e, he⟩ := Option.isSome_iff_exists.mp (hpres v hv)
        exact ⟨e, he, (hres _ (lookup_mem he)).1⟩
      obtain ⟨current, hmin, hcur⟩ := minByCostAux_some res us u hgood
      obtain ⟨current_entry, hentry⟩ :=
        Option.isSome_iff_exists.mp (hpres current hcur)
      obtain ⟨nbrs, hnbrs⟩ := Option.isSome_iff_exists.mp (hadj current hcur)
      have hsub : ∀ v ∈ (u :: us).erase current, v ∈ u :: us :=
        fun v hv => List.mem_of_mem_erase hv
      have hlen' : ((u :: us).erase current).length ≤ fuel := by
        rw [List.length_erase_of_mem hcur]
        simpa using hlen
      have hres' :
          ResInv Q (relaxAll route_cost_weight route_hops_weight current
            current_entry ((u :: us).erase current) nbrs res) :=
        relaxAll_resInv route_cost_weight route_hops_weight current
          current_entry ((u :: us).erase current) (hQ current hcur) nbrs res
          hres
      have hpres' : ∀ v ∈ (u :: us).erase current,
          (List.lookup v (relaxAll route_cost_weight route_hops_weight current
            current_entry ((u :: us).erase current) nbrs res)).isSome
            = true := by
        intro v hv
        rw [lookup_isSome_iff_mem_fst, relaxAll_map_fst,
          ← lookup_isSome_iff_mem_fst]
        exact hpres v (hsub v hv)
      obtain ⟨out, hout, hinv⟩ :=
        ih ((u :: us).erase current) _ hlen'
          (fun v hv => hQ v (hsub v hv)) hpres'
          (fun v hv => hadj v (hsub v hv)) hres'
      refine ⟨out, ?_, hinv⟩
      simp only [dijkstraLoop, hmin, hentry, hnbrs]
      exact hout

/-- `dijkstra` never panics, and its table stores only non-`NaN` costs and
predecessors drawn from the working set (the start node and the
non-gateways). -/
lemma dijkstra_ok (route_cost_weight route_hops_weight : F32)
    (adjacency_map : AdjacencyMap) (gateway_ids : List ℕ) (start : ℕ) :
    ∃ table, dijkstra route_cost_weight route_hops_weight adjacency_map
        gateway_ids start = some table ∧
      ResInv (fun q => q = start ∨ q ∉ gateway_ids) table := by
  simp only [dijkstra]
  apply dijkstraLoop_ok
  · exact le_refl _
  · intro v hv
    have hf : v ∈ (adjacency_map.map Prod.fst).filter
        (keepNode gateway_ids start) := (mem_sortNat _ _).mp hv
    have hk : keepNode gateway_ids start v = true := (List.mem_filter.mp hf).2
    simpa [keepNode] using hk
  · intro v hv
    exact lookup_map_pair_isSome _ _ v hv
  · intro v hv
    have hf : v ∈ (adjacency_map.map Prod.fst).filter
        (keepNode gateway_ids start) := (mem_sortNat _ _).mp hv
    exact lookup_isSome_iff_mem_fst.mpr (List.mem_filter.mp hf).1
  · intro p hp
    simp only [List.mem_map] at hp
    obtain ⟨v, hv, rfl⟩ := hp
    refine ⟨?_, ?_⟩
    · unfold initDist
      split_ifs <;> simp
    · intro q hq
      simp at hq

/-- On a list of records with non-`NaN` costs, the (buggy) binary-search
position is defined: the probed element's self-comparison succeeds. -/
lemma next_hop_insert_position_some {l : List DijkstraEntry}
    (h : ∀ e ∈ l, e.total_cost ≠ F32.nan) :
    ∃ p, next_hop_insert_position l = some p := by
  unfold next_hop_insert_position
  cases hg : l.get? (l.length / 2) with
  | none => exact ⟨0, rfl⟩
  | some e =>
    have he : e.total_cost ≠ F32.nan := h e (List.get?_mem hg)
    obtain ⟨o, ho⟩ := F32.partialCmp_isSome he he
    simp [ho]

/-- A member of `insertAt l p e` is `e` or a member of `l`. -/
lemma mem_insertAt {x e : DijkstraEntry} :
    ∀ (l : List DijkstraEntry) (p : ℕ), x ∈ insertAt l p e → x = e ∨ x ∈ l := by
  intro l
  induction l with
  | nil =>
    intro p hx
    cases p with
    | zero => simpa [insertAt] using hx
    | succ q => simpa [insertAt] using hx
  | cons y ys ih =>
    intro p hx
    cases p with
    | zero => simpa [insertAt] using hx
    | succ q =>
      rcases List.mem_cons.mp (by simpa [insertAt] using hx) with h | h
      · exact Or.inr (by simp [h])
      · rcases ih q h with h' | h'
        · exact Or.inl h'
        · exact Or.inr (List.mem_cons_of_mem _ h')

/-- A member of `accSet acc v l` is the new binding or an old member. -/
lemma mem_accSet {acc : NextHopsAcc} {v : ℕ} {l : List DijkstraEntry}
    {p : ℕ × List DijkstraEntry} (hp : p ∈ accSet acc v l) :
    p = (v, l) ∨ p ∈ acc := by
  unfold accSet at hp
  split_ifs at hp with h
  · simp only [List.mem_map] at hp
    obtain ⟨q, hq, rfl⟩ := hp
    by_cases h' : q.1 = v
    · left
      rw [if_pos h']
    · right
      rw [if_neg h']
      exact hq
  · rcases List.mem_append.mp hp with h' | h'
    · exact Or.inr h'
    · left
      simpa using h'

/-- Inserting a record with a non-`NaN` cost never panics and preserves the
accumulator invariant. -/
lemma accInsert_ok {acc : NextHopsAcc} {v : ℕ} {e : DijkstraEntry}
    (hacc : AccInv acc) (he : e.total_cost ≠ F32.nan) :
    ∃ acc', accInsert acc v e = some acc' ∧ AccInv acc' := by
  have hl : ∀ x ∈ (List.lookup v acc).getD [], x.total_cost ≠ F32.nan := by
    intro x hx
    cases hv : List.lookup v acc with
    | none => simp [hv] at hx
    | some l0 =>
      rw [hv] at hx
      exact hacc (v, l0) (lookup_mem hv) x hx
  simp only [accInsert]
  split_ifs with hc
  · exact ⟨acc, rfl, hacc⟩
  · obtain ⟨p, hp⟩ := next_hop_insert_position_some hl
    rw [hp]
    refine ⟨_, rfl, ?_⟩
    intro q hq x hx
    rcases mem_accSet hq with rfl | hq'
    · rcases mem_insertAt _ _ hx with rfl | hx'
      · exact he
      · exact hl x hx'
    · exact hacc q hq' x hx

/-- Folding a Dijkstra table with non-`NaN` costs into the accumulator never
panics and preserves the accumulator invariant. -/
lemma insertTableEntries_ok (g : ℕ) :
    ∀ (table : List (ℕ × DijkstraEntry)) (acc : NextHopsAcc),
      AccInv acc → (∀ p ∈ table, p.2.total_cost ≠ F32.nan) →
      ∃ acc', insertTableEntries g table acc = some acc' ∧ AccInv acc' := by
  intro table
  induction table with
  | nil =>
    intro acc hacc _
    exact ⟨acc, rfl, hacc⟩
  | cons p rest ih =>
    intro acc hacc htab
    obtain ⟨node_id, entry⟩ := p
    by_cases hid : node_id = g
    · simp only [insertTableEntries, if_pos hid]
      exact ih acc hacc (fun q hq => htab q (List.mem_cons_of_mem _ hq))
    · obtain ⟨acc1, hacc1, hinv1⟩ :=
        accInsert_ok (v := node_id) hacc (htab (node_id, entry) (by simp))
      simp only [insertTableEntries, if_neg hid, hacc1]
      exact ih acc1 hinv1 (fun q hq => htab q (List.mem_cons_of_mem _ hq))

/-- If some remaining gateway is absent from the adjacency map, the gateway
loop reaches it without panicking and returns the empty map. -/
lemma nextHopsGo_missing (route_cost_weight route_hops_weight : F32)
    (adjacency_map : AdjacencyMap) (gateway_ids : List ℕ) :
    ∀ (rest : List ℕ) (acc : NextHopsAcc),
      (∃ g ∈ rest, g ∉ adjacency_map.map Prod.fst) → AccInv acc →
      nextHopsGo route_cost_weight route_hops_weight adjacency_map gateway_ids
        rest acc = some [] := by
  intro rest
  induction rest with
  | nil =>
    intro acc hex _
    simp at hex
  | cons g rest ih =>
    intro acc hex hacc
    by_cases hg : g ∈ adjacency_map.map Prod.fst
    · have hex' : ∃ g' ∈ rest, g' ∉ adjacency_map.map Prod.fst := by
        obtain ⟨g', hg', habs⟩ := hex
        rcases List.mem_cons.mp hg' with rfl | h
        · exact absurd hg habs
        · exact ⟨g', h, habs⟩
      obtain ⟨table, htable, hinv⟩ :=
        dijkstra_ok route_cost_weight route_hops_weight adjacency_map
          gateway_ids g
      obtain ⟨acc', hacc', hinv'⟩ :=
        insertTableEntries_ok g table acc hacc (fun p hp => (hinv p hp).1)
      simp only [nextHopsGo, if_pos hg, htable, hacc']
      exact ih acc' hex' hinv'
    · simp only [nextHopsGo, if_neg hg]

/-- `Vec`-style in-place update at the boundary of a split list. -/
lemma set_append_cons {α : Type} :
    ∀ (post : List α) (p0 : α) (pr : List α) (x : α),
      (post ++ p0 :: pr).set post.length x = post ++ x :: pr := by
  intro post
  induction post with
  | nil =>
    intro p0 pr x
    rfl
  | cons y ys ih =>
    intro p0 pr x
    simp only [List.cons_append, List.length_cons, List.set_cons_succ]
    rw [ih]

/-- A single `write` on a buffer satisfying the invariant for `W` succeeds
and establishes the invariant for `W ++ [x]`. -/
lemma write_step {α : Type} {c : ℕ} (hc : 1 ≤ c) {W : List α}
    {b : RingBuffer α} (x : α) (h : RBInv c W b) :
    ∃ b', b.write x = .ok b' ∧ RBInv c (W ++ [x]) b' := by
  obtain ⟨hcap, pre, post, hitems, hidx, hpost, hiter, hlen, hfill⟩ := h
  have hc0 : ¬ c = 0 := by omega
  by_cases hW : W.length < c
  · -- fill phase: items = W, next write pushes
    have hpre : pre = [] := hfill hW
    subst hpre
    have hsub : W.length - c = 0 := by omega
    have hbw : b.items = W := by
      rw [hitems]
      rw [hsub, List.drop_zero] at hiter
      simpa using hiter
    have hWlen : b.items.length = W.length := by rw [hbw]
    have hWlt : b.items.length < c := by omega
    have hidx' : b.next_insertion_index = W.length := by
      rw [hidx]
      have := hitems
      rw [hbw] at this
      have : post.length = W.length := by
        have := congrArg List.length this
        simpa using this.symm
      omega
    refine ⟨⟨b.items ++ [x], c, (b.next_insertion_index + 1) % c⟩, ?_, ?_⟩
    · simp [RingBuffer.write, hcap, hWlt, hc0]
    · refine ⟨rfl, ?_⟩
      by_cases hW1 : W.length + 1 < c
      · refine ⟨[], b.items ++ [x], by simp, ?_, ?_, ?_, ?_, fun _ => rfl⟩
        · rw [hidx', List.length_append, hWlen]
          exact Nat.mod_eq_of_lt hW1
        · simp only [List.length_append, hWlen, List.length_cons,
            List.length_nil]
          omega
        · have hz : (W ++ [x]).length - c = 0 := by
            simp only [List.length_append, List.length_cons, List.length_nil]
            omega
          rw [hz, List.drop_zero]
          simp [hbw]
        · simp only [List.length_append, hWlen, List.length_cons,
            List.length_nil]
          omega
      · have hWc : W.length + 1 = c := by omega
        refine ⟨b.items ++ [x], [], by simp, ?_, ?_, ?_, ?_, ?_⟩
        · rw [hidx', List.length_nil]
          rw [show W.length + 1 = c from hWc]
          simp
        · simp only [List.length_nil]
          omega
        · have hz : (W ++ [x]).length - c = 0 := by
            simp only [List.length_append, List.length_cons, List.length_nil]
            omega
          rw [hz, List.drop_zero]
          simp [hbw]
        · simp only [List.length_append, hWlen, List.length_cons,
            List.length_nil]
          omega
        · intro hcontra
          simp only [List.length_append, List.length_cons,
            List.length_nil] at hcontra
          omega
  · -- full phase: overwrite the oldest element
    have hlenc : b.items.length = c := by omega
    have hprene : pre ≠ [] := by
      intro hp
      subst hp
      simp only [List.append_nil] at hitems
      rw [hitems] at hlenc
      omega
    obtain ⟨p0, pr, hpre⟩ := List.exists_cons_of_ne_nil hprene
    subst hpre
    have hnotlt : ¬ b.items.length < c := by omega
    have hidxlt : b.next_insertion_index < b.items.length := by omega
    have hset : b.items.set b.next_insertion_index x = post ++ x :: pr := by
      rw [hitems, hidx]
      exact set_append_cons post p0 pr x
    have hiter' : (W ++ [x]).drop ((W ++ [x]).length - c)
        = pr ++ post ++ [x] := by
      have h1 : (W ++ [x]).length - c = (W.length - c) + 1 := by
        simp only [List.length_append, List.length_cons, List.length_nil]
        omega
      rw [h1, List.drop_append_of_le_length (by omega)]
      have h3 : W.drop (W.length - c + 1)
          = (W.drop (W.length - c)).drop 1 := by
        rw [List.drop_drop]
      have h2 : W.drop (W.length - c + 1) = pr ++ post := by
        rw [h3, ← hiter]
        simp
      rw [h2, List.append_assoc]
    have hpostpr : post.length + pr.length + 1 = c := by
      have := hlenc
      rw [hitems] at this
      simp only [List.length_append, List.length_cons] at this
      omega
    refine ⟨⟨post ++ x :: pr, c, (b.next_insertion_index + 1) % c⟩, ?_, ?_⟩
    · simp [RingBuffer.write, hcap, hnotlt, hidxlt, hc0, hset]
    · refine ⟨rfl, ?_⟩
      by_cases hp1 : post.length + 1 < c
      · refine ⟨pr, post ++ [x], by simp, ?_, ?_, ?_, ?_, ?_⟩
        · rw [hidx, List.length_append]
          simpa using Nat.mod_eq_of_lt hp1
        · simpa using hp1
        · rw [hiter']
          simp
        · simp only [List.length_append, List.length_cons,
            List.length_nil]
          omega
        · intro hcontra
          simp only [List.length_append, List.length_cons,
            List.length_nil] at hcontra
          omega
      · have hp1' : post.length + 1 = c := by omega
        have hpr : pr = [] := by
          have : pr.length = 0 := by omega
          exact List.eq_nil_of_length_eq_zero this
        subst hpr
        refine ⟨post ++ [x], [], by simp, ?_, by omega, ?_, ?_, ?_⟩
        · rw [hidx, List.length_nil]
          rw [show post.length + 1 = c from hp1']
          simp
        · rw [hiter']
          simp
        · simp only [List.length_append, List.length_cons,
            List.length_nil]
          omega
        · intro hcontra
          simp only [List.length_append, List.length_cons,
            List.length_nil] at hcontra
          omega

/-- Writing a whole sequence from a fresh buffer of capacity `c ≥ 1` never
panics and establishes the invariant. -/
lemma writeAll_inv {α : Type} {c : ℕ} (hc : 1 ≤ c) :
    ∀ (S W : List α) (b : RingBuffer α), RBInv c W b →
      ∃ b', writeAll b S = .ok b' ∧ RBInv c (W ++ S) b' := by
  intro S
  induction S with
  | nil =>
    intro W b h
    exact ⟨b, rfl, by simpa using h⟩
  | cons x xs ih =>
    intro W b h
    obtain ⟨b1, hw, h1⟩ := write_step hc x h
    obtain ⟨b', hws, h'⟩ := ih (W ++ [x]) b1 h1
    refine ⟨b', ?_, ?_⟩
    · simp only [writeAll, hw]
      exact hws
    · simpa [List.append_assoc] using h'

/-- The fresh buffer satisfies the invariant for the empty sequence. -/
lemma rbinv_new {α : Type} {c : ℕ} (hc : 1 ≤ c) :
    RBInv c ([] : List α) (RingBuffer.new c) := by
  refine ⟨rfl, [], [], rfl, rfl, ?_, ?_, ?_, fun _ => rfl⟩
  · simpa using hc
  · simp
  · simp [RingBuffer.new]

/-- Under the invariant, iteration yields the last `min (W.length) c`
elements of `W` in insertion order. -/
lemma iter_eq_of_rbinv {α : Type} {c : ℕ} {W : List α} {b : RingBuffer α}
    (h : RBInv c W b) : b.iter = W.drop (W.length - c) := by
  obtain ⟨hcap, pre, post, hitems, hidx, hpost, hiter, hlen, hfill⟩ := h
  rw [RingBuffer.iter, hitems, hidx, List.drop_left, List.take_left]
  exact hiter

/-! ## Claim theorems -/

/-- C1: the claim says every payload the broker publishes on the inbound
topic is forwarded onto the fan-out bus. The source contradicts it:
`handle_mqtt_message` only logs and sends nothing, so the bus is unchanged by
an incoming publish and no subscriber ever receives the payload. -/
theorem c1_incoming_publish_not_forwarded :
    ∀ (bus : List (List ℕ)) (topic : String) (payload : List ℕ),
      subscriberTaskStep bus topic payload = bus ∧
        payload ∉ handle_mqtt_message topic payload := by
  intro bus topic payload
  exact ⟨by simp [subscriberTaskStep, handle_mqtt_message],
    by simp [handle_mqtt_message]⟩

set_option maxRecDepth 8000 in
/-- C2: the claim says every next-hop list is sorted ascending by the
`total_cost` of its source records. On the adjacency map
`{1: {3: 1}, 2: {3: 5}, 3: {}}` with gateways `[1, 2]`, cost weight 1 and
hops weight 0, node 3's accumulated records carry costs `[5, 1]` — not
ascending, since `5 > 1` — because the self-comparing `binary_search_by`
comparator makes every insertion land at index `len / 2`. -/
theorem c2_next_hop_list_unsorted :
    (nextHopsGo (F32.val (Frac.ofInt 1)) (F32.val (Frac.ofInt 0))
          [(1, [(3, F32.val (Frac.ofInt 1))]), (2, [(3, F32.val (Frac.ofInt 5))]), (3, [])] [1, 2] [1, 2]
          []).map
        (fun acc => ((List.lookup 3 acc).getD []).map DijkstraEntry.total_cost)
        = some [F32.val (Frac.ofInt 5), F32.val (Frac.ofInt 1)] ∧
      compute_next_hops_map (F32.val (Frac.ofInt 1)) (F32.val (Frac.ofInt 0))
          [(1, [(3, F32.val (Frac.ofInt 1))]), (2, [(3, F32.val (Frac.ofInt 5))]), (3, [])] [1, 2]
        = some [(3, [2, 1])] ∧
      ¬ ((5 : ℚ) ≤ 1) := by
  exact ⟨by decide, by decide, by norm_num⟩

set_option maxRecDepth 8000 in
/-- C3 counterexample: the claim says no next-hop list contains a gateway id.
On the adjacency map `{1: {2: 1}, 2: {}}` with the single gateway 1, node 2's
next-hop list is exactly `[1]` — it contains the gateway. -/
theorem c3_next_hops_contain_gateway :
    compute_next_hops_map (F32.val (Frac.ofInt 1)) (F32.val (Frac.ofInt 0))
        [(1, [(2, F32.val (Frac.ofInt 1))]), (2, [])] [1] = some [(2, [1])] ∧
      (1 : ℕ) ∈ [1] := by
  exact ⟨by decide, by decide⟩

/-- C4 counterexample: the claim puts
`compute_edge_weight_proportionalised rssi snr` in `[0, 10]` for every
`rssi ∈ [−120, 0]` and `snr ∈ [−20, 30]`. At `rssi = 0`, `snr = 30` the
result is `−30/17 < 0`: the proportionalisation divides by the range without
shifting by `MIN_WEIGHT`. -/
theorem c4_range_counterexample :
    compute_edge_weight_proportionalised 0 30 = -30 / 17 ∧
      ¬ (0 : ℚ) ≤ compute_edge_weight_proportionalised 0 30 := by
  have h : compute_edge_weight_proportionalised 0 30 = -30 / 17 := by
    norm_num [compute_edge_weight_proportionalised, compute_edge_weight,
      proportionalise_weight, WEIGHT_RANGE, MAX_WEIGHT, MIN_WEIGHT, MIN_SNR,
      MAX_SNR, MIN_RSSI, MAX_RSSI, MAX_HOPS, f32Max]
  refine ⟨h, ?_⟩
  rw [h]
  norm_num

/-- C5: for every capacity `c ≥ 1` and write sequence `S`, iterating the
buffer built by writing `S` into a fresh capacity-`c` buffer yields exactly
the last `min (S.length) c` elements of `S` in insertion order (expressed as
`S.drop (S.length - c)`), and no write panics. -/
theorem c5_ring_buffer_iteration :
    ∀ {α : Type} (c : ℕ) (S : List α), 1 ≤ c →
      (writeAll (RingBuffer.new c) S).map RingBuffer.iter
        = .ok (S.drop (S.length - c)) := by
  intro α c S hc
  obtain ⟨b, hb, hinv⟩ :=
    writeAll_inv hc S [] (RingBuffer.new c) (rbinv_new hc)
  rw [hb]
  have : b.iter = S.drop (S.length - c) := by
    have h := iter_eq_of_rbinv (by simpa using hinv)
    simpa using h
  simp [Except.map, this]

/-- Witness for C5: writing `[1, 2, 3]` into a capacity-2 buffer iterates as
`[2, 3]`. -/
theorem c5_ring_buffer_witness :
    (1 ≤ 2) ∧
      (writeAll (RingBuffer.new 2) [1, 2, 3]
          : Except PanicKind (RingBuffer ℕ)).map RingBuffer.iter
        = .ok ([1, 2, 3].drop ([1, 2, 3].length - 2)) :=
  ⟨by decide, c5_ring_buffer_iteration 2 [1, 2, 3] (by decide)⟩

/-- C4 (amended): for `snr < −20` the result is the proportionalised
`f32::MAX` — the huge but finite `f32Max * 10 / 170`, not `+∞`; otherwise it
is `(−rssi − snr) * 10 / 170` (so the divisor `MAX_WEIGHT − MIN_WEIGHT` is
170 and the factor `MAX_HOPS` is 10, as claimed); and on
`rssi ∈ [−120, 0]`, `snr ∈ [−20, 30]` the result lies in
`[−30/17, 140/17]`, not `[0, 10]`. -/
theorem c4_edge_weight_characterisation :
    ∀ (rssi : ℤ) (snr : ℚ),
      (snr < -20 →
        compute_edge_weight_proportionalised rssi snr = f32Max * 10 / 170) ∧
      (¬ snr < -20 →
        compute_edge_weight_proportionalised rssi snr
          = ((-rssi : ℚ) - snr) * 10 / 170) ∧
      (-120 ≤ rssi → rssi ≤ 0 → -20 ≤ snr → snr ≤ 30 →
        -(30 / 17) ≤ compute_edge_weight_proportionalised rssi snr ∧
          compute_edge_weight_proportionalised rssi snr ≤ 140 / 17) := by
  intro rssi snr
  have hr : WEIGHT_RANGE = 170 := by
    norm_num [WEIGHT_RANGE, MAX_WEIGHT, MIN_WEIGHT, compute_edge_weight,
      MIN_SNR, MAX_SNR, MIN_RSSI, MAX_RSSI, f32Max]
  refine ⟨?_, ?_, ?_⟩
  · intro h
    rw [compute_edge_weight_proportionalised, proportionalise_weight, hr,
      compute_edge_weight, if_pos (show snr < MIN_SNR by simpa [MIN_SNR]
        using h)]
    norm_num [MAX_HOPS]
    ring
  · intro h
    rw [compute_edge_weight_proportionalised, proportionalise_weight, hr,
      compute_edge_weight, if_neg (show ¬ snr < MIN_SNR by simpa [MIN_SNR]
        using h)]
    norm_num [MAX_HOPS]
    ring
  · intro h1 h2 h3 h4
    have hns : ¬ snr < MIN_SNR := by
      rw [MIN_SNR]
      linarith
    rw [compute_edge_weight_proportionalised, proportionalise_weight, hr,
      compute_edge_weight, if_neg hns]
    have hc1 : (rssi : ℚ) ≤ 0 := by exact_mod_cast h2
    have hc2 : (-120 : ℚ) ≤ (rssi : ℚ) := by exact_mod_cast h1
    constructor
    · rw [MAX_HOPS]
      push_cast
      linarith
    · rw [MAX_HOPS]
      push_cast
      linarith

/-- Witness for C4: at `(rssi, snr) = (−60, 10)` the in-range branch and the
bounds hold, and at `(0, −25)` the below-`MIN_SNR` branch holds. -/
theorem c4_edge_weight_witness :
    (compute_edge_weight_proportionalised (-60) 10
        = ((-(-60 : ℤ) : ℚ) - 10) * 10 / 170 ∧
      (-(30 / 17) ≤ compute_edge_weight_proportionalised (-60) 10 ∧
        compute_edge_weight_proportionalised (-60) 10 ≤ 140 / 17)) ∧
      compute_edge_weight_proportionalised 0 (-25) = f32Max * 10 / 170 :=
  ⟨⟨(c4_edge_weight_characterisation (-60) 10).2.1 (by norm_num),
    (c4_edge_weight_characterisation (-60) 10).2.2 (by norm_num)
      (by norm_num) (by norm_num) (by norm_num)⟩,
    (c4_edge_weight_characterisation 0 (-25)).1 (by norm_num)⟩

/-- C6: the claim says the gauge is decremented exactly once per session and
never goes negative. Starting from gauge 0: the session opens (+1), a
telemetry message whose websocket send fails makes `on_message_from_mesh`
decrement and return — but its caller's loop keeps running — and the
subsequent client close decrements again: the gauge ends at −1. -/
theorem c6_gauge_double_decrement :
    handle_live_info_websocket 0 true
        [WsEvent.meshTelemetry false, WsEvent.clientFrame false] = -1 ∧
      handle_live_info_websocket 0 true
          [WsEvent.meshTelemetry false, WsEvent.clientFrame false] < 0 := by
  exact ⟨by decide, by decide⟩

/-- C3 (amended): a next-hop list may contain a gateway — the source gateway
of the Dijkstra run the record was drawn from (the final hop of a path that
terminates there). What holds is that no recorded predecessor is a gateway
other than that source: every `previous` field in the table of
`dijkstra .. gateway_ids start` is either `start` itself or a
non-gateway. -/
theorem c3_previous_is_source_or_non_gateway :
    ∀ (route_cost_weight route_hops_weight : F32)
      (adjacency_map : AdjacencyMap) (gateway_ids : List ℕ) (start : ℕ)
      (table : DijkstraResult) (v : ℕ) (e : DijkstraEntry) (p : ℕ),
      dijkstra route_cost_weight route_hops_weight adjacency_map gateway_ids
          start = some table →
      (v, e) ∈ table → e.previous = some p → p = start ∨ p ∉ gateway_ids := by
  intro cw hw adj gws start table v e p hd hm hp
  obtain ⟨t, ht, hinv⟩ := dijkstra_ok cw hw adj gws start
  rw [hd] at ht
  injection ht with ht
  subst ht
  exact (hinv (v, e) hm).2 p hp

set_option maxRecDepth 8000 in
/-- Witness for C3: on the chain `1 → 2 → 3` with gateway 1, node 3's record
has predecessor 2, which is not a gateway. -/
theorem c3_previous_witness : (2 : ℕ) = 1 ∨ (2 : ℕ) ∉ [1] :=
  c3_previous_is_source_or_non_gateway (F32.val (Frac.ofInt 1))
    (F32.val (Frac.ofInt 0))
    [(1, [(2, F32.val (Frac.ofInt 1))]), (2, [(3, F32.val (Frac.ofInt 1))]),
      (3, [])]
    [1] 1
    [(1, ⟨F32.val ⟨0, 1⟩, F32.val ⟨0, 1⟩, none, 0⟩),
      (2, ⟨F32.val ⟨1, 1⟩, F32.val ⟨1, 1⟩, some 1, 1⟩),
      (3, ⟨F32.val ⟨2, 1⟩, F32.val ⟨2, 1⟩, some 2, 2⟩)]
    3 ⟨F32.val ⟨2, 1⟩, F32.val ⟨2, 1⟩, some 2, 2⟩ 2
    (by decide) (by decide) (by decide)

/-- C9 (amended): `dijkstra` itself never panics — on every adjacency map,
`NaN` edge weights included — and a `NaN`-weighted relaxation never replaces
a table entry (every comparison against the `NaN` candidate cost is false,
exactly as it would be against a `+∞` cost). `compute_next_hops_map` is not
covered: `c9_nan_panic_counterexample` shows it can still panic when the
`NaN` link leaves a node without a predecessor, just as a `+∞` weight
would. -/
theorem c9_dijkstra_no_panic_nan_never_preferred :
    (∀ (route_cost_weight route_hops_weight : F32)
        (adjacency_map : AdjacencyMap) (gateway_ids : List ℕ) (start : ℕ),
        (dijkstra route_cost_weight route_hops_weight adjacency_map gateway_ids
            start).isSome = true) ∧
      (∀ (route_cost_weight route_hops_weight : F32) (current : ℕ)
          (current_entry : DijkstraEntry) (unvisited : List ℕ)
          (res : DijkstraResult) (neighbour : ℕ),
        relax route_cost_weight route_hops_weight current current_entry
            unvisited res neighbour F32.nan = res) := by
  constructor
  · intro cw hw adj gws start
    obtain ⟨t, ht, _⟩ := dijkstra_ok cw hw adj gws start
    simp [ht]
  · intro cw hw current current_entry unvisited res neighbour
    simp [relax, get_route_cost, F32.add_nan_right, F32.mul_nan_left,
      F32.add_nan_left, F32.lt_nan_left]

/-- C8: with a non-empty gateway list, if any gateway id is absent from the
adjacency map's keys, `compute_next_hops_map` returns the empty map — the
loop processes the earlier gateways without panicking and aborts with
`HashMap::new()` at the first absent gateway. -/
theorem c8_missing_gateway_empty_map :
    ∀ (route_cost_weight route_hops_weight : F32)
      (adjacency_map : AdjacencyMap) (gateway_ids : List ℕ),
      gateway_ids ≠ [] →
      (∃ g ∈ gateway_ids, g ∉ adjacency_map.map Prod.fst) →
      compute_next_hops_map route_cost_weight route_hops_weight adjacency_map
        gateway_ids = some [] := by
  intro cw hw adj gws _ hex
  have h := nextHopsGo_missing cw hw adj gws gws [] hex
    (by intro p hp; simp at hp)
  simp only [compute_next_hops_map, h]
  rfl

/-- Witness for C8: gateway 2 is absent from the adjacency map `{1: {}}`, so
the next-hops map is empty. -/
theorem c8_missing_gateway_witness :
    compute_next_hops_map (F32.val (Frac.ofInt 1)) (F32.val (Frac.ofInt 1))
      [(1, [])] [2] = some [] :=
  c8_missing_gateway_empty_map (F32.val (Frac.ofInt 1))
    (F32.val (Frac.ofInt 1)) [(1, [])] [2] (by decide)
    ⟨2, by decide, by decide⟩

set_option maxRecDepth 8000 in
/-- C9 counterexample: the claim says that with a `NaN` edge weight in the
adjacency map, `compute_next_hops_map` still returns a result (no panic). On
`{1: {2: NaN}, 2: {}}` with gateway 1, node 2 is never relaxed (every
comparison against the `NaN` candidate cost is false), its record keeps
`previous = None`, and the final `unwrap_or_else(|| panic!(..))` panics. -/
theorem c9_nan_panic_counterexample :
    compute_next_hops_map (F32.val (Frac.ofInt 1)) (F32.val (Frac.ofInt 1))
        [(1, [(2, F32.nan)]), (2, [])] [1] = none := by
  decide

/-- C10 counterexample: the claim attributes the capacity-0 first-write panic
to the remainder by zero in `next_insertion_index %= capacity`. The write
does panic, but by indexing the empty `items` vector out of bounds, which is
evaluated before the remainder. -/
theorem c10_capacity_zero_counterexample :
    (RingBuffer.new 0 : RingBuffer ℕ).write 0
        = Except.error PanicKind.indexOutOfBounds ∧
      PanicKind.indexOutOfBounds ≠ PanicKind.remainderByZero := by
  exact ⟨rfl, by decide⟩

/-- C10 (amended): constructing a capacity-0 ring buffer succeeds, and the
first `write` on it panics — by index-out-of-bounds on the empty `items`
vector (reached before the remainder by zero would be); the ring-buffer
guarantees therefore carry the implicit precondition `capacity ≥ 1`. -/
theorem c10_capacity_zero_write_panics {α : Type} :
    ∀ (x : α),
      (RingBuffer.new 0 : RingBuffer α).write x
        = Except.error PanicKind.indexOutOfBounds := by
  intro x
  rfl

/-- C7: `await_mesh_response` returns `Ok(v)` when the predicate first yields
`Some(v)` on a decoded payload, and otherwise errors exactly as the first
forcing event dictates — decode failure, lagged receiver, closed receiver —
or times out with the message "Timed out waiting for mesh response after N
seconds" when no event before the deadline forces an outcome. -/
theorem c7_await_mesh_response_characterisation :
    ∀ {γ α β : Type} (decode : γ → Except String α) (timeout_secs : ℕ)
      (callback : α → Option β) (events : List (RecvOutcome γ)),
      await_mesh_response decode timeout_secs callback events
        = (events.findSome? (meshResponseEventOutcome decode callback)).getD
            (Except.error (timeoutMessage timeout_secs)) := by
  intro γ α β decode timeout_secs callback events
  induction events with
  | nil => rfl
  | cons e rest ih =>
    cases e with
    | ok buffer =>
      cases hd : decode buffer with
      | ok m =>
        cases hc : callback m with
        | none =>
          simp [await_mesh_response, meshResponseEventOutcome,
            List.findSome?_cons, hd, hc, ih]
        | some v =>
          simp [await_mesh_response, meshResponseEventOutcome,
            List.findSome?_cons, hd, hc]
      | error err =>
        simp [await_mesh_response, meshResponseEventOutcome,
          List.findSome?_cons, hd]
    | lagged =>
      simp [await_mesh_response, meshResponseEventOutcome, List.findSome?_cons]
    | closed =>
      simp [await_mesh_response, meshResponseEventOutcome, List.findSome?_cons]

end MeshServer
